import Mathlib

/-!
Verification of the featured-artists standardizer plugin
(featured-artists-standardizer/feat_standardizer.py).

The Python module is a pure text-processing core: it recognises the
feature tokens "feat.", "featuring" and "with" inside artist credit
strings, splits lead artist from guests, normalizes guest lists, and
rewrites title/artist metadata fields.  The definitions below are a
shallow embedding of that module over `List Char` (Python `str`), with
the regular expressions of the source modelled by explicit scanning
functions (ASCII scope for case folding, `\w` and `\s`).
-/

set_option maxHeartbeats 1600000

namespace FeatStd

/-! ### Character classes (`\s`, `\w`, lower-casing) -/

/-- Python regex `\s` (ASCII range). -/
def isSpc (c : Char) : Bool :=
  c == ' ' || c == '\t' || c == '\n' || c == '\r' || c == '\x0b' || c == '\x0c'

/-- Python regex `\w` (ASCII range). -/
def isWordChar (c : Char) : Bool := c.isAlphanum || c == '_'

/-- ASCII lower-casing, modelling `str.lower`/`str.casefold` and `(?i)`
matching on the ASCII strings this plugin compares. -/
def lc : Char → Char
  | 'A' => 'a' | 'B' => 'b' | 'C' => 'c' | 'D' => 'd' | 'E' => 'e' | 'F' => 'f'
  | 'G' => 'g' | 'H' => 'h' | 'I' => 'i' | 'J' => 'j' | 'K' => 'k' | 'L' => 'l'
  | 'M' => 'm' | 'N' => 'n' | 'O' => 'o' | 'P' => 'p' | 'Q' => 'q' | 'R' => 'r'
  | 'S' => 's' | 'T' => 't' | 'U' => 'u' | 'V' => 'v' | 'W' => 'w' | 'X' => 'x'
  | 'Y' => 'y' | 'Z' => 'z'
  | c => c

/-- Characters `_strip_wrappers` may remove: whitespace and bracket pairs. -/
def isJunk (c : Char) : Bool :=
  isSpc c || c == '(' || c == ')' || c == '[' || c == ']' || c == '{' || c == '}'

/-- The contiguous segment `s[i..j)` of a character list. -/
def seg (s : List Char) (i j : Nat) : List Char := (s.drop i).take (j - i)

/-- Length of the whitespace run of `s` starting at position `p`. -/
def wsRun (s : List Char) (p : Nat) : Nat := ((s.drop p).takeWhile isSpc).length

/-! ### `_strip_wrappers` -/

/-- Left part of Python `str.strip()`. -/
def trimL (s : List Char) : List Char := s.dropWhile isSpc

/-- Right part of Python `str.strip()`. -/
def trimR (s : List Char) : List Char := (s.reverse.dropWhile isSpc).reverse

/-- Python `str.strip()` (no arguments: strips whitespace). -/
def pyStrip (s : List Char) : List Char := trimR (trimL s)

/-- `t.startswith(left) and t.endswith(right)` for one of the pairs
`()`, `[]`, `{}` (the loop body of `_strip_wrappers`). -/
def matchPair (t : List Char) : Bool :=
  (t.head? == some '(' && t.getLast? == some ')') ||
  (t.head? == some '[' && t.getLast? == some ']') ||
  (t.head? == some '{' && t.getLast? == some '}')

/-- The `while changed` loop of `_strip_wrappers`; each successful
iteration removes the outer bracket pair and re-strips, so a fuel of
`length + 1` always suffices. -/
def stripLoopF : Nat → List Char → List Char
  | 0, t => t
  | fuel + 1, t =>
    if matchPair t then stripLoopF fuel (pyStrip ((t.drop 1).dropLast)) else t

/-- `_strip_wrappers`. -/
def stripWrappers (s : List Char) : List Char :=
  if s = [] then [] else stripLoopF (s.length + 1) (pyStrip s)

/-! ### `_FEAT_SPLIT_RE` and `_split_artist_feat` -/

/-- Whether every character of `s[i..j)` fails `\w` (used for the
word-boundary checks; an empty segment means end of string, which is a
boundary). -/
def nonWordSeg (s : List Char) (i j : Nat) : Bool :=
  (seg s i j).all (fun c => !isWordChar c)

/-- The `\b` before a token starting with a word character at
position `j`. -/
def boundaryBefore (s : List Char) (j : Nat) : Bool :=
  j == 0 || nonWordSeg s (j - 1) j

/-- Does one of `\bfeat\.` / `\bfeaturing\b` / `\bwith\b` (the
alternation of `_FEAT_SPLIT_RE`, case-insensitive) match at position
`j`?  Returns the token length. -/
def tokLenAt (s : List Char) (j : Nat) : Option Nat :=
  if boundaryBefore s j then
    if (seg s j (j + 5)).map lc == "feat.".toList then some 5
    else if (seg s j (j + 9)).map lc == "featuring".toList && nonWordSeg s (j + 9) (j + 10) then
      some 9
    else if (seg s j (j + 4)).map lc == "with".toList && nonWordSeg s (j + 4) (j + 5) then
      some 4
    else none
  else none

/-- The lazy `(.*?)` scan of `_FEAT_SPLIT_RE.match`: find the first
position carrying a token, failing if a newline is reached first (the
dot does not match newlines). -/
def findTokF (s : List Char) : Nat → Nat → Option (Nat × Nat)
  | 0, _ => none
  | fuel + 1, p =>
    if p < s.length then
      match tokLenAt s p with
      | some l => some (p, l)
      | none => if s.getD p ' ' == '\n' then none else findTokF s fuel (p + 1)
    else none

/-- `_FEAT_SPLIT_RE.match`: position and length of the first feature
token, if the regex matches. -/
def findTok (s : List Char) : Option (Nat × Nat) := findTokF s (s.length + 1) 0

/-! ### `_FEAT_SEP_RE` and `_normalize_feat_list` -/

/-- One of the alternatives `\s*X\s*` for a literal separator char `X`. -/
def sepChar (s : List Char) (p : Nat) (c : Char) : Option Nat :=
  let w := wsRun s p
  match (s.drop (p + w)).head? with
  | some c2 => if c2 == c then some (w + 1 + wsRun s (p + w + 1)) else none
  | none => none

/-- The alternative `\s+and\s+` (case-insensitive). -/
def sepAnd (s : List Char) (p : Nat) : Option Nat :=
  let w := wsRun s p
  if w == 0 then none
  else if (seg s (p + w) (p + w + 3)).map lc == "and".toList then
    let v := wsRun s (p + w + 3)
    if v == 0 then none else some (w + 3 + v)
  else none

/-- The alternative `\s+\/\s+` (slash only when surrounded by spaces). -/
def sepSlash (s : List Char) (p : Nat) : Option Nat :=
  let w := wsRun s p
  if w == 0 then none
  else
    match (s.drop (p + w)).head? with
    | some c2 =>
      if c2 == '/' then
        let v := wsRun s (p + w + 1)
        if v == 0 then none else some (w + 1 + v)
      else none
    | none => none

/-- `_FEAT_SEP_RE` tried at position `p` (alternatives in source order);
returns the length of the separator match. -/
def sepMatchAt (s : List Char) (p : Nat) : Option Nat :=
  (sepChar s p ',').orElse fun _ =>
  (sepChar s p '&').orElse fun _ =>
  (sepChar s p ';').orElse fun _ =>
  (sepChar s p '+').orElse fun _ =>
  (sepAnd s p).orElse fun _ => sepSlash s p

/-- `re.split` scanning for `_FEAT_SEP_RE`: leftmost non-overlapping
matches; `st` is the start of the current piece.  Every separator match
consumes at least one character, so fuel `length + 1` suffices. -/
def sepSplitF (s : List Char) : Nat → Nat → Nat → List (List Char)
  | 0, _, st => [seg s st s.length]
  | fuel + 1, p, st =>
    if p < s.length then
      match sepMatchAt s p with
      | some n => seg s st p :: sepSplitF s fuel (p + n) (p + n)
      | none => sepSplitF s fuel (p + 1) st
    else [seg s st s.length]

/-- `_FEAT_SEP_RE.split`. -/
def sepSplit (s : List Char) : List (List Char) := sepSplitF s (s.length + 1) 0 0

/-- The dedup loop of `_normalize_feat_list` (`seen` holds casefolded
keys; order of first occurrence is preserved). -/
def normLoop : List (List Char) → List (List Char) → List (List Char)
  | _, [] => []
  | seen, p :: rest =>
    let t := stripWrappers p
    if t = [] then normLoop seen rest
    else if seen.contains (t.map lc) then normLoop seen rest
    else t :: normLoop (t.map lc :: seen) rest

/-- `_normalize_feat_list`. -/
def normalizeFeatList (tail : List Char) : List (List Char) :=
  if tail = [] then []
  else normLoop [] ((sepSplit tail).filter (fun p => !p.isEmpty))

/-- `_split_artist_feat`: group 2 of the split regex is the text after
the token with its leading whitespace consumed by `\s*`, up to the next
newline (`.` does not cross newlines). -/
def splitArtistFeat (s : List Char) : List Char × List (List Char) :=
  if s = [] then ([], [])
  else
    match findTok s with
    | none => (s, [])
    | some (j, l) =>
      let lead := stripWrappers (s.take j)
      let tail := stripWrappers (((s.drop (j + l)).dropWhile isSpc).takeWhile (fun c => c != '\n'))
      (if lead = [] then s else lead, normalizeFeatList tail)

/-! ### `_already_has_feat_suffix` -/

/-- The plain (no word boundary) token alternation
`feat\.|featuring|with` of the suffix regex, case-insensitive. -/
def plainTokAt (s : List Char) (a : Nat) : Option Nat :=
  if (seg s a (a + 5)).map lc == "feat.".toList then some 5
  else if (seg s a (a + 9)).map lc == "featuring".toList then some 9
  else if (seg s a (a + 4)).map lc == "with".toList then some 4
  else none

/-- Does `\(\s*(?:feat\.|featuring|with)\s+.+\)\s*$` match starting at
position `i`?  After the token at `b` we need a closing paren at some
`k` preceded by at least one whitespace character and at least one
non-newline character (split point `t`), with only whitespace after `k`
(`\s*$`, which also absorbs a trailing newline). -/
def hasSuffixAt (s : List Char) (i : Nat) : Bool :=
  (s.getD i ' ' == '(') &&
  (let a := i + 1 + wsRun s (i + 1)
   match plainTokAt s a with
   | none => false
   | some tl =>
     let b := a + tl
     (List.range (s.length + 1)).any (fun k =>
       decide (b + 2 ≤ k) && decide (k < s.length) && (s.getD k ' ' == ')') &&
       (s.drop (k + 1)).all isSpc &&
       (List.range (k + 1)).any (fun t =>
         decide (b + 1 ≤ t) && decide (t < k) &&
         (seg s b t).all isSpc && (seg s t k).all (fun c => c != '\n'))))

/-- `_already_has_feat_suffix` (`re.search` over all start positions). -/
def alreadyHasFeatSuffix (s : List Char) : Bool :=
  (List.range s.length).any (fun i => hasSuffixAt s i)

/-! ### `_FT_NORMALIZE_RE` and `_standardize_join_phrases`

The constructed pattern is `escape(A1)(\s*.*\s*)escape(A2)...(\s*.*$)`.
A group `(\s*.*\s*)` matches exactly the segments of shape
`whitespace* ; non-newline* ; whitespace*`, and the backtracking engine
tries the end position of each group in decreasing order, so the
matcher below scans candidate positions for the next literal name from
the right. -/

/-- Membership in `\s*.*` (whitespace, then non-newlines). -/
def wnOk (t : List Char) : Bool := !((t.dropWhile isSpc).contains '\n')

/-- Membership in `\s*.*\s*`. -/
def wnwOk (t : List Char) : Bool := !((pyStrip t).contains '\n')

/-- The final group `(\s*.*$)`: `$` matches at the end of the string or
just before a final newline; greedy matching prefers the former. -/
def matchTail (s : List Char) (pos : Nat) : Option (List Char) :=
  if wnOk (s.drop pos) then some (s.drop pos)
  else if s.getLast? == some '\n' && decide (pos < s.length) && wnOk (seg s pos (s.length - 1)) then
    some (seg s pos (s.length - 1))
  else none

/-- The literal (escaped) artist name `a` at position `q` (case-sensitive:
the constructed pattern has no `(?i)`). -/
def nameAt (s a : List Char) (q : Nat) : Bool := seg s q (q + a.length) == a

/-- Match `(\s*.*\s*) name` pairs followed by the tail group, returning
the captured join segments.  Candidate end positions are tried from the
right (greedy). -/
def matchGroups (s : List Char) : List (List Char) → Nat → Option (List (List Char))
  | [], pos => (matchTail s pos).map (fun t => [t])
  | a :: rest, pos =>
    (List.range (s.length + 1)).reverse.findSome? (fun q =>
      if decide (pos ≤ q) && wnwOk (seg s pos q) && nameAt s a q then
        (matchGroups s rest (q + a.length)).map (fun js => seg s pos q :: js)
      else none)

/-- `re.match(match_exp, artists_str)` for the constructed pattern:
the first name is a literal at position 0. -/
def matchNames (s : List Char) (names : List (List Char)) : Option (List (List Char)) :=
  match names with
  | [] => none
  | a :: rest => if nameAt s a 0 then matchGroups s rest a.length else none

/-- One form matched by `_FT_NORMALIZE_RE` = `  f(ea)?t(\.|uring)? `
(case-insensitive, literal spaces) as a prefix of `l`. -/
def ftForm (pat : List Char) (l : List Char) : Bool :=
  (l.take pat.length).map lc == pat

/-- `_FT_NORMALIZE_RE` tried as a prefix of `l`; the alternatives are
ordered by the engine's greedy preference (`(ea)?` present first, then
`.` before `uring` before absent). -/
def ftMatchLen (l : List Char) : Option Nat :=
  if ftForm " feat. ".toList l then some 7
  else if ftForm " featuring ".toList l then some 11
  else if ftForm " feat ".toList l then some 6
  else if ftForm " ft. ".toList l then some 5
  else if ftForm " fturing ".toList l then some 9
  else if ftForm " ft ".toList l then some 4
  else none

/-- `_FT_NORMALIZE_RE.sub(" feat. ", l)`: scan left to right, replacing
non-overlapping matches.  Every match consumes at least one character,
so fuel `length` suffices. -/
def ftSubF : Nat → List Char → List Char
  | 0, l => l
  | _ + 1, [] => []
  | fuel + 1, c :: rest =>
    match ftMatchLen (c :: rest) with
    | some n => " feat. ".toList ++ ftSubF fuel ((c :: rest).drop n)
    | none => c :: ftSubF fuel rest

def ftSub (l : List Char) : List Char := ftSubF l.length l

/-- `"".join(artist + join for artist, join in zip(artists_list, joins))`. -/
def rebuildJoins : List (List Char) → List (List Char) → List Char
  | a :: as, j :: js => a ++ j ++ rebuildJoins as js
  | _, _ => []

/-- `_standardize_join_phrases` (list-level). -/
def standardizeJoinPhrases (s : List Char) (names : List (List Char)) : List Char :=
  if s.isEmpty || names.isEmpty then s
  else
    match matchNames s names with
    | none => s
    | some joins => rebuildJoins names (joins.map ftSub)

/-! ### String-level wrappers -/

def splitArtistFeatS (s : String) : String × List String :=
  let r := splitArtistFeat s.toList
  (String.mk r.1, r.2.map String.mk)

def normalizeFeatListS (s : String) : List String :=
  (normalizeFeatList s.toList).map String.mk

def alreadyHasFeatSuffixS (s : String) : Bool := alreadyHasFeatSuffix s.toList

def standardizeS (s : String) (names : List String) : String :=
  String.mk (standardizeJoinPhrases s.toList (names.map String.toList))

/-- `albumartist.strip().lower() == "various artists"`. -/
def vaCheckS (s : String) : Bool := (pyStrip s.toList).map lc == "various artists".toList

/-! ### Metadata record and configuration -/

/-- The host's metadata record: tag name to multi-value (Picard stores
every tag as a list; single-value reads join with "; "). -/
abbrev Metadata := List (String × List String)

def mlookup : Metadata → String → Option (List String)
  | [], _ => none
  | (k2, v) :: rest, k => if k2 == k then some v else mlookup rest k

/-- `metadata.get(k, "")`. -/
def mget (m : Metadata) (k : String) : String :=
  match mlookup m k with
  | some vs => String.intercalate "; " vs
  | none => ""

/-- `metadata.getall(k)` (empty list if absent). -/
def mgetall (m : Metadata) (k : String) : List String := (mlookup m k).getD []

/-- `metadata[k] = value` (never deletes; replaces or appends). -/
def mset : Metadata → String → List String → Metadata
  | [], k, vs => [(k, vs)]
  | (k2, v) :: rest, k, vs =>
    if k2 == k then (k, vs) :: rest else (k2, v) :: mset rest k vs

/-- The plugin configuration (re-read on every call in the source; here
passed explicitly). -/
structure Config where
  addFeaturedArtistsTag : Bool
  featuredArtistsWhitelist : String

/-! ### Whitelist (`_parse_whitelist`, `_is_whitelisted*`) -/

/-- `re.split(r"[\n,;]", raw)`. -/
def isDelim (c : Char) : Bool := c == '\n' || c == ',' || c == ';'

def splitOnDelims : List Char → List (List Char)
  | [] => [[]]
  | c :: rest =>
    match splitOnDelims rest with
    | [] => [[c]]
    | h :: t => if isDelim c then [] :: h :: t else (c :: h) :: t

/-- `_parse_whitelist`: split, strip, drop empties, casefold. -/
def parseWhitelist (raw : List Char) : List (List Char) :=
  (((splitOnDelims raw).map pyStrip).filter (fun x => !x.isEmpty)).map (fun x => x.map lc)

/-- `_is_whitelisted`. -/
def isWhitelisted (cfg : Config) (credit : String) : Bool :=
  let wl := parseWhitelist cfg.featuredArtistsWhitelist.toList
  !credit.isEmpty && !wl.isEmpty && wl.contains ((pyStrip credit.toList).map lc)

/-- `_is_whitelisted_credit_or_lead`. -/
def isWhitelistedCreditOrLead (cfg : Config) (credit : String) : Bool :=
  isWhitelisted cfg credit ||
  (let lead := (splitArtistFeatS credit).1
   !lead.isEmpty && isWhitelisted cfg lead)

/-! ### Processors

`stdField` is the value of the local `artist`/`albumartist` variable
after the join-phrase pre-pass: the source computes `std` only when both
the string and the credited list are non-empty, and the field is written
back exactly when the result differs from the current value. -/

def stdField (cur : String) (lst : List String) : String :=
  if !cur.isEmpty && !lst.isEmpty then standardizeS cur lst else cur

/-- The write-back of the join-phrase pre-pass: the source writes the
standardized value only when it differs from the current one. -/
def applyStd (m : Metadata) (key listKey : String) : Metadata :=
  if stdField (mget m key) (mgetall m listKey) ≠ mget m key then
    mset m key [stdField (mget m key) (mgetall m listKey)]
  else m

/-- `if metadata.get(sort-key): reduce it to its split lead` — shared by
the track (`artistsort`) and album (`albumartistsort`) processors. -/
def sortReduce (m : Metadata) (key : String) : Metadata :=
  if mget m key ≠ "" then mset m key [(splitArtistFeatS (mget m key)).1] else m

/-- The `if feat:` block of `move_track_featartists`: write the lead to
`artist` and reduce a non-empty `artistsort` to its lead. -/
def trackSplitWrite (m2 : Metadata) (artist1 : String) : Metadata :=
  if (splitArtistFeatS artist1).2 ≠ [] then
    sortReduce (mset m2 "artist" [(splitArtistFeatS artist1).1]) "artistsort"
  else m2

/-- The "Add to title once" block of `move_track_featartists`. -/
def trackTitleWrite (m3 : Metadata) (feat : List String) : Metadata :=
  if feat ≠ [] ∧ mget m3 "title" ≠ "" ∧ alreadyHasFeatSuffixS (mget m3 "title") = false then
    mset m3 "title" [mget m3 "title" ++ " (feat. " ++ String.intercalate "; " feat ++ ")"]
  else m3

/-- The optional `FEATURED_ARTISTS` write of `move_track_featartists`. -/
def trackTagWrite (cfg : Config) (m4 : Metadata) (feat : List String) : Metadata :=
  if feat ≠ [] ∧ cfg.addFeaturedArtistsTag then mset m4 "FEATURED_ARTISTS" feat else m4

/-- `move_track_featartists` (the `tagger`, `track` and `release`
arguments are unused by the source). -/
def move_track_featartists (cfg : Config) (m : Metadata) : Metadata :=
  if isWhitelistedCreditOrLead cfg (mget m "artist") then m
  else
    trackTagWrite cfg
      (trackTitleWrite
        (trackSplitWrite (applyStd (applyStd m "artist" "artists") "artistsort" "~artists_sort")
          (stdField (mget m "artist") (mgetall m "artists")))
        (splitArtistFeatS (stdField (mget m "artist") (mgetall m "artists"))).2)
      (splitArtistFeatS (stdField (mget m "artist") (mgetall m "artists"))).2

/-- The "Append to album title if not already present" block of
`move_album_featartists`. -/
def albumTitleWrite (m4 : Metadata) (feat : List String) : Metadata :=
  if mget m4 "album" ≠ "" ∧ alreadyHasFeatSuffixS (mget m4 "album") = false then
    mset m4 "album" [mget m4 "album" ++ " (feat. " ++ String.intercalate "; " feat ++ ")"]
  else m4

/-- The `if feat:` tail of `move_album_featartists`: write the lead to
`albumartist`, reduce a non-empty `albumartistsort`, and append the
suffix to the album title. -/
def albumSplitWrite (m2 : Metadata) (aa1 : String) : Metadata :=
  albumTitleWrite (sortReduce (mset m2 "albumartist" [(splitArtistFeatS aa1).1]) "albumartistsort")
    (splitArtistFeatS aa1).2

/-- `move_album_featartists`. -/
def move_album_featartists (cfg : Config) (m : Metadata) : Metadata :=
  if mget m "albumartist" = "" then m
  else if isWhitelistedCreditOrLead cfg (mget m "albumartist") then m
  else if vaCheckS (stdField (mget m "albumartist") (mgetall m "~albumartists")) then
    applyStd (applyStd m "albumartist" "~albumartists") "albumartistsort" "~albumartists_sort"
  else if (splitArtistFeatS (stdField (mget m "albumartist") (mgetall m "~albumartists"))).2 = []
    then
    applyStd (applyStd m "albumartist" "~albumartists") "albumartistsort" "~albumartists_sort"
  else
    albumSplitWrite
      (applyStd (applyStd m "albumartist" "~albumartists") "albumartistsort" "~albumartists_sort")
      (stdField (mget m "albumartist") (mgetall m "~albumartists"))

/-- The reassembly of `names` and captured joins in the order produced
by the matcher (a join precedes each matched name, and the tail join
closes the string). -/
def interTail : List (List Char) → List (List Char) → List Char
  | [], j :: _ => j
  | a :: as, j :: js => j ++ a ++ interTail as js
  | _, [] => []

/-- `_strip_wrappers` only ever removes whitespace and bracket characters
from the two ends: the result is the middle of a decomposition whose
margins consist of such junk characters. -/
def JunkMargins (s r : List Char) : Prop :=
  ∃ pre post, s = pre ++ r ++ post ∧
    (∀ c ∈ pre, isJunk c = true) ∧ (∀ c ∈ post, isJunk c = true)

/-! ### Basic lemmas about the metadata record -/

theorem mlookup_mset_self (m : Metadata) (k : String) (vs : List String) :
    mlookup (mset m k vs) k = some vs := by
  induction m with
  | nil => simp [mset, mlookup]
  | cons kv rest ih =>
    obtain ⟨k2, v⟩ := kv
    by_cases h : k2 = k
    · simp [mset, mlookup, h]
    · simp [mset, mlookup, h, ih]

theorem mlookup_mset_ne (m : Metadata) (k k2 : String) (vs : List String) (h : k2 ≠ k) :
    mlookup (mset m k vs) k2 = mlookup m k2 := by
  induction m with
  | nil => simp [mset, mlookup, Ne.symm h]
  | cons kv rest ih =>
    obtain ⟨k3, v⟩ := kv
    by_cases h3 : k3 = k
    · subst h3
      simp [mset, mlookup, Ne.symm h]
    · simp [mset, mlookup, h3, ih]

theorem isSome_mlookup_mset (m : Metadata) (k k2 : String) (vs : List String)
    (h : (mlookup m k2).isSome = true) : (mlookup (mset m k vs) k2).isSome = true := by
  by_cases hk : k2 = k
  · subst hk
    simp [mlookup_mset_self]
  · rw [mlookup_mset_ne m k k2 vs hk]
    exact h

theorem mget_mset_ne (m : Metadata) (k k2 : String) (vs : List String) (h : k2 ≠ k) :
    mget (mset m k vs) k2 = mget m k2 := by
  unfold mget
  rw [mlookup_mset_ne m k k2 vs h]

theorem mget_mset_single (m : Metadata) (k : String) (v : String) :
    mget (mset m k [v]) k = v := by
  unfold mget
  rw [mlookup_mset_self]
  rfl

/-! ### Lemmas about the token scan -/

theorem findTokF_none (s : List Char) (h : ∀ j, j < s.length → tokLenAt s j = none) :
    ∀ fuel p, findTokF s fuel p = none := by
  intro fuel
  induction fuel with
  | zero => intro p; rfl
  | succ f ih =>
    intro p
    unfold findTokF
    by_cases hp : p < s.length
    · rw [if_pos hp, h p hp]
      show (if (s.getD p ' ' == '\n') = true then none else findTokF s f (p + 1)) = none
      split
      · rfl
      · exact ih (p + 1)
    · rw [if_neg hp]

theorem findTokF_some_inv (s : List Char) :
    ∀ fuel p j l, findTokF s fuel p = some (j, l) →
      p ≤ j ∧ j < s.length ∧ tokLenAt s j = some l ∧
        (∀ q, p ≤ q → q < j → tokLenAt s q = none) := by
  intro fuel
  induction fuel with
  | zero => intro p j l h; simp [findTokF] at h
  | succ f ih =>
    intro p j l h
    unfold findTokF at h
    by_cases hp : p < s.length
    · rw [if_pos hp] at h
      cases htok : tokLenAt s p with
      | some l2 =>
        rw [htok] at h
        simp only [Option.some.injEq, Prod.mk.injEq] at h
        obtain ⟨rfl, rfl⟩ := h
        refine ⟨Nat.le_refl _, hp, htok, ?_⟩
        intro q h1 h2
        omega
      | none =>
        rw [htok] at h
        change (if (s.getD p ' ' == '\n') = true then none else findTokF s f (p + 1)) =
          some (j, l) at h
        by_cases hnl : (s.getD p ' ' == '\n') = true
        · rw [if_pos hnl] at h
          simp at h
        · rw [if_neg hnl] at h
          obtain ⟨h1, h2, h3, h4⟩ := ih (p + 1) j l h
          refine ⟨by omega, h2, h3, ?_⟩
          intro q hq1 hq2
          rcases Nat.eq_or_lt_of_le hq1 with hq | hq
          · exact hq ▸ htok
          · exact h4 q hq hq2
    · rw [if_neg hp] at h
      simp at h

theorem string_mk_toList (s : String) : String.mk s.toList = s := rfl

theorem toList_eq_nil_iff (s : String) : s.toList = [] ↔ s = "" :=
  ⟨fun h => by rw [← string_mk_toList s, h], fun h => by subst h; rfl⟩

theorem splitArtistFeat_no_token (s : List Char)
    (h : ∀ j, j < s.length → tokLenAt s j = none) : splitArtistFeat s = (s, []) := by
  unfold splitArtistFeat
  by_cases hs : s = []
  · simp [hs]
  · rw [if_neg hs]
    rw [show findTok s = none from findTokF_none s h _ _]

theorem splitArtistFeat_guests_token (l : List Char) (h : (splitArtistFeat l).2 ≠ []) :
    (findTok l).isSome = true := by
  unfold splitArtistFeat at h
  by_cases hs : l = []
  · rw [if_pos hs] at h
    simp at h
  · rw [if_neg hs] at h
    cases hft : findTok l with
    | none =>
      rw [hft] at h
      exact absurd rfl h
    | some jl => simp [hft]

theorem splitArtistFeat_lead_ne_nil (l : List Char) (hl : l ≠ []) :
    (splitArtistFeat l).1 ≠ [] := by
  unfold splitArtistFeat
  rw [if_neg hl]
  cases hft : findTok l with
  | none => exact hl
  | some jl =>
    obtain ⟨j, len⟩ := jl
    show (if stripWrappers (l.take j) = [] then l else stripWrappers (l.take j)) ≠ []
    by_cases hw : stripWrappers (l.take j) = []
    · rw [if_pos hw]; exact hl
    · rw [if_neg hw]; exact hw

/-! ### The claims -/

/-- C1: for every credit string in which the token alternation of
`_FEAT_SPLIT_RE` matches at no position, `_split_artist_feat` returns
the untouched original string together with the empty guest list (no
wrapper-stripping on the no-match path), and the empty string maps to
the empty-string/empty-list result. -/
theorem claim1_no_token_passthrough :
    (∀ s : String, (∀ j, j < s.toList.length → tokLenAt s.toList j = none) →
      splitArtistFeatS s = (s, [])) ∧ splitArtistFeatS "" = ("", []) := by
  constructor
  · intro s h
    show (let r := splitArtistFeat s.toList; (String.mk r.1, r.2.map String.mk)) = (s, [])
    rw [splitArtistFeat_no_token s.toList h]
    rfl
  · rfl

theorem claim1_witness : splitArtistFeatS "AC/DC" = ("AC/DC", []) :=
  claim1_no_token_passthrough.1 "AC/DC" (by decide)

/-- C6: `_normalize_feat_list` deduplicates case-insensitively while
preserving first-seen order and strips balanced outer wrappers, on the
two scenario inputs of the specification. -/
theorem claim6_normalize_scenarios :
    normalizeFeatListS "Guest A & guest a, Guest B" = ["Guest A", "Guest B"] ∧
      normalizeFeatListS " (Guest A) & Guest B, guest a / Guest C " =
        ["Guest A", "Guest B", "Guest C"] := by
  constructor <;> rfl

/-- C9: `_standardize_join_phrases` degrades to a no-op: if either
input is empty or the constructed name-sequence regex does not match
the freeform credit string, the original string is returned unchanged
(the Lean model is a total function, mirroring the `try/except` that
swallows any internal failure). -/
theorem claim9_standardize_noop (s : String) (L : List String)
    (h : s = "" ∨ L = [] ∨ matchNames s.toList (L.map String.toList) = none) :
    standardizeS s L = s := by
  unfold standardizeS standardizeJoinPhrases
  by_cases hc : (s.toList.isEmpty || (L.map String.toList).isEmpty) = true
  · rw [if_pos hc]
    rfl
  · rw [if_neg hc]
    rcases h with h | h | h
    · subst h; simp at hc
    · subst h; simp at hc
    · rw [h]
      rfl

theorem claim9_witness : standardizeS "B" ["X"] = "B" :=
  claim9_standardize_noop "B" ["X"] (Or.inr (Or.inr (by decide)))

/-- C5 (counterexample): on `"X with"` the split regex matches (a token
is found), yet the returned guest list is empty, refuting the claimed
equivalence between an empty guest list and the absence of a token. -/
theorem claim5_cex :
    (splitArtistFeatS "X with").2 = [] ∧ (findTok "X with".toList).isSome = true := by
  constructor <;> rfl

/-- C5 (amended): a non-empty guest list implies a token was found (the
converse fails when the guest tail is empty), and the returned lead is
non-empty whenever the input is non-empty. -/
theorem claim5_amended (s : String) :
    ((splitArtistFeatS s).2 ≠ [] → (findTok s.toList).isSome = true) ∧
      (s ≠ "" → (splitArtistFeatS s).1 ≠ "") := by
  constructor
  · intro h2
    apply splitArtistFeat_guests_token s.toList
    intro hnil
    apply h2
    show List.map String.mk (splitArtistFeat s.toList).2 = []
    rw [hnil]
    rfl
  · intro h1
    have hs : s.toList ≠ [] := fun hh => h1 ((toList_eq_nil_iff s).mp hh)
    have hl := splitArtistFeat_lead_ne_nil s.toList hs
    intro hcon
    apply hl
    have h3 : (splitArtistFeatS s).1.toList = String.toList "" := congrArg String.toList hcon
    exact h3

theorem claim5_witness :
    (findTok "A feat. B".toList).isSome = true ∧ (splitArtistFeatS "A feat. B").1 ≠ "" :=
  ⟨(claim5_amended "A feat. B").1 (by decide), (claim5_amended "A feat. B").2 (by decide)⟩

/-- C3: the track processor is not idempotent.  With artist credit
`"(X ft Y) with Z"` and credited artists list `["X", "Y"]`, the first
pass cannot standardize the join phrase (the wrapper blocks the
name-sequence regex) and reduces the artist to `"X ft Y"`; the second
pass then standardizes the surviving `" ft "` into `" feat. "` and
splits again, giving artist `"X"` — so running the processor twice
differs from running it once, contradicting the documented idempotence. -/
theorem claim3_eval_nonidempotent :
    move_track_featartists ⟨false, ""⟩
        (move_track_featartists ⟨false, ""⟩
          [("artist", ["(X ft Y) with Z"]), ("artists", ["X", "Y"]), ("title", ["T"])]) ≠
      move_track_featartists ⟨false, ""⟩
        [("artist", ["(X ft Y) with Z"]), ("artists", ["X", "Y"]), ("title", ["T"])] := by
  decide

theorem mget_applyStd_ne (m : Metadata) (key lk k : String) (h : k ≠ key) :
    mget (applyStd m key lk) k = mget m k := by
  unfold applyStd
  split
  · exact mget_mset_ne _ _ _ _ h
  · rfl

theorem mlookup_applyStd_ne (m : Metadata) (key lk k : String) (h : k ≠ key) :
    mlookup (applyStd m key lk) k = mlookup m k := by
  unfold applyStd
  split
  · exact mlookup_mset_ne _ _ _ _ h
  · rfl

theorem isSome_applyStd (m : Metadata) (key lk k : String)
    (h : (mlookup m k).isSome = true) : (mlookup (applyStd m key lk) k).isSome = true := by
  unfold applyStd
  split
  · exact isSome_mlookup_mset _ _ _ _ h
  · exact h

theorem mget_sortReduce_ne (m : Metadata) (key k : String) (h : k ≠ key) :
    mget (sortReduce m key) k = mget m k := by
  unfold sortReduce
  split
  · exact mget_mset_ne _ _ _ _ h
  · rfl

theorem mlookup_sortReduce_ne (m : Metadata) (key k : String) (h : k ≠ key) :
    mlookup (sortReduce m key) k = mlookup m k := by
  unfold sortReduce
  split
  · exact mlookup_mset_ne _ _ _ _ h
  · rfl

theorem isSome_sortReduce (m : Metadata) (key k : String)
    (h : (mlookup m k).isSome = true) : (mlookup (sortReduce m key) k).isSome = true := by
  unfold sortReduce
  split
  · exact isSome_mlookup_mset _ _ _ _ h
  · exact h

theorem mget_trackSplitWrite_ne (m : Metadata) (a : String) (k : String)
    (h1 : k ≠ "artist") (h2 : k ≠ "artistsort") :
    mget (trackSplitWrite m a) k = mget m k := by
  unfold trackSplitWrite
  split
  · rw [mget_sortReduce_ne _ _ _ h2, mget_mset_ne _ _ _ _ h1]
  · rfl

theorem mlookup_trackSplitWrite_ne (m : Metadata) (a : String) (k : String)
    (h1 : k ≠ "artist") (h2 : k ≠ "artistsort") :
    mlookup (trackSplitWrite m a) k = mlookup m k := by
  unfold trackSplitWrite
  split
  · rw [mlookup_sortReduce_ne _ _ _ h2, mlookup_mset_ne _ _ _ _ h1]
  · rfl

theorem isSome_trackSplitWrite (m : Metadata) (a : String) (k : String)
    (h : (mlookup m k).isSome = true) : (mlookup (trackSplitWrite m a) k).isSome = true := by
  unfold trackSplitWrite
  split
  · exact isSome_sortReduce _ _ _ (isSome_mlookup_mset _ _ _ _ h)
  · exact h

theorem mget_trackTitleWrite_ne (m : Metadata) (feat : List String) (k : String)
    (h : k ≠ "title") : mget (trackTitleWrite m feat) k = mget m k := by
  unfold trackTitleWrite
  split
  · exact mget_mset_ne _ _ _ _ h
  · rfl

theorem mlookup_trackTitleWrite_ne (m : Metadata) (feat : List String) (k : String)
    (h : k ≠ "title") : mlookup (trackTitleWrite m feat) k = mlookup m k := by
  unfold trackTitleWrite
  split
  · exact mlookup_mset_ne _ _ _ _ h
  · rfl

theorem isSome_trackTitleWrite (m : Metadata) (feat : List String) (k : String)
    (h : (mlookup m k).isSome = true) :
    (mlookup (trackTitleWrite m feat) k).isSome = true := by
  unfold trackTitleWrite
  split
  · exact isSome_mlookup_mset _ _ _ _ h
  · exact h

theorem mget_trackTagWrite_ne (cfg : Config) (m : Metadata) (feat : List String)
    (k : String) (h : k ≠ "FEATURED_ARTISTS") :
    mget (trackTagWrite cfg m feat) k = mget m k := by
  unfold trackTagWrite
  split
  · exact mget_mset_ne _ _ _ _ h
  · rfl

theorem mlookup_trackTagWrite_ne (cfg : Config) (m : Metadata) (feat : List String)
    (k : String) (h : k ≠ "FEATURED_ARTISTS") :
    mlookup (trackTagWrite cfg m feat) k = mlookup m k := by
  unfold trackTagWrite
  split
  · exact mlookup_mset_ne _ _ _ _ h
  · rfl

theorem isSome_trackTagWrite (cfg : Config) (m : Metadata) (feat : List String) (k : String)
    (h : (mlookup m k).isSome = true) :
    (mlookup (trackTagWrite cfg m feat) k).isSome = true := by
  unfold trackTagWrite
  split
  · exact isSome_mlookup_mset _ _ _ _ h
  · exact h

theorem mget_albumTitleWrite_ne (m : Metadata) (feat : List String) (k : String)
    (h : k ≠ "album") : mget (albumTitleWrite m feat) k = mget m k := by
  unfold albumTitleWrite
  split
  · exact mget_mset_ne _ _ _ _ h
  · rfl

theorem mlookup_albumTitleWrite_ne (m : Metadata) (feat : List String) (k : String)
    (h : k ≠ "album") : mlookup (albumTitleWrite m feat) k = mlookup m k := by
  unfold albumTitleWrite
  split
  · exact mlookup_mset_ne _ _ _ _ h
  · rfl

theorem isSome_albumTitleWrite (m : Metadata) (feat : List String) (k : String)
    (h : (mlookup m k).isSome = true) :
    (mlookup (albumTitleWrite m feat) k).isSome = true := by
  unfold albumTitleWrite
  split
  · exact isSome_mlookup_mset _ _ _ _ h
  · exact h

theorem mlookup_albumSplitWrite_ne (m : Metadata) (a : String) (k : String)
    (h1 : k ≠ "albumartist") (h2 : k ≠ "albumartistsort") (h3 : k ≠ "album") :
    mlookup (albumSplitWrite m a) k = mlookup m k := by
  unfold albumSplitWrite
  rw [mlookup_albumTitleWrite_ne _ _ _ h3, mlookup_sortReduce_ne _ _ _ h2,
    mlookup_mset_ne _ _ _ _ h1]

theorem isSome_albumSplitWrite (m : Metadata) (a : String) (k : String)
    (h : (mlookup m k).isSome = true) :
    (mlookup (albumSplitWrite m a) k).isSome = true := by
  unfold albumSplitWrite
  exact isSome_albumTitleWrite _ _ _ (isSome_sortReduce _ _ _ (isSome_mlookup_mset _ _ _ _ h))

/-- C10: frame condition — the track processor writes only the keys
`artist`, `artistsort`, `title` and `FEATURED_ARTISTS`, the album
processor writes only `albumartist`, `albumartistsort` and `album`;
every other key keeps its previous binding, and neither processor
deletes a key (present keys remain present). -/
theorem claim10_frame (cfg : Config) (m : Metadata) (k : String) :
    (k ≠ "artist" → k ≠ "artistsort" → k ≠ "title" → k ≠ "FEATURED_ARTISTS" →
      mlookup (move_track_featartists cfg m) k = mlookup m k) ∧
    (k ≠ "albumartist" → k ≠ "albumartistsort" → k ≠ "album" →
      mlookup (move_album_featartists cfg m) k = mlookup m k) ∧
    ((mlookup m k).isSome = true →
      (mlookup (move_track_featartists cfg m) k).isSome = true ∧
      (mlookup (move_album_featartists cfg m) k).isSome = true) := by
  refine ⟨?_, ?_, ?_⟩
  · intro h1 h2 h3 h4
    unfold move_track_featartists
    split
    · rfl
    · rw [mlookup_trackTagWrite_ne _ _ _ _ h4, mlookup_trackTitleWrite_ne _ _ _ h3,
        mlookup_trackSplitWrite_ne _ _ _ h1 h2, mlookup_applyStd_ne _ _ _ _ h2,
        mlookup_applyStd_ne _ _ _ _ h1]
  · intro h1 h2 h3
    unfold move_album_featartists
    split_ifs <;>
      simp only [mlookup_albumSplitWrite_ne _ _ _ h1 h2 h3, mlookup_applyStd_ne _ _ _ _ h2,
        mlookup_applyStd_ne _ _ _ _ h1]
  · intro hs
    constructor
    · unfold move_track_featartists
      split
      · exact hs
      · exact isSome_trackTagWrite _ _ _ _ (isSome_trackTitleWrite _ _ _
          (isSome_trackSplitWrite _ _ _ (isSome_applyStd _ _ _ _ (isSome_applyStd _ _ _ _ hs))))
    · unfold move_album_featartists
      split_ifs
      · exact hs
      · exact hs
      · exact isSome_applyStd _ _ _ _ (isSome_applyStd _ _ _ _ hs)
      · exact isSome_applyStd _ _ _ _ (isSome_applyStd _ _ _ _ hs)
      · exact isSome_albumSplitWrite _ _ _ (isSome_applyStd _ _ _ _ (isSome_applyStd _ _ _ _ hs))


/-- C7: when the full artist credit or its split lead is whitelisted,
the track and album processors return the metadata record entirely
unchanged (no split, no suffix, no join-phrase standardization). -/
theorem claim7_whitelist_no_mutation (cfg : Config) (m : Metadata) :
    (isWhitelistedCreditOrLead cfg (mget m "artist") = true →
      move_track_featartists cfg m = m) ∧
    (isWhitelistedCreditOrLead cfg (mget m "albumartist") = true →
      move_album_featartists cfg m = m) := by
  constructor
  · intro h
    unfold move_track_featartists
    rw [if_pos h]
  · intro h
    unfold move_album_featartists
    by_cases ha : mget m "albumartist" = ""
    · rw [if_pos ha]
    · rw [if_neg ha, if_pos h]

/-- C2: suffix application is skip-on-existing with an exact appended
literal: for a non-whitelisted credit whose (standardized) artist
splits with a non-empty guest list and a non-empty title, the title is
left unchanged when it already carries a feat-suffix, and otherwise
becomes `title ++ " (feat. " ++ guests joined by "; " ++ ")"`. -/
theorem claim2_suffix_exact (cfg : Config) (m : Metadata)
    (hwl : isWhitelistedCreditOrLead cfg (mget m "artist") = false)
    (hfeat : (splitArtistFeatS (stdField (mget m "artist") (mgetall m "artists"))).2 ≠ [])
    (htitle : mget m "title" ≠ "") :
    mget (move_track_featartists cfg m) "title" =
      (if alreadyHasFeatSuffixS (mget m "title") = true then mget m "title"
       else mget m "title" ++ " (feat. " ++
         String.intercalate "; "
           (splitArtistFeatS (stdField (mget m "artist") (mgetall m "artists"))).2 ++ ")") := by
  have t1 : ("title" : String) ≠ "artist" := by decide
  have t2 : ("title" : String) ≠ "artistsort" := by decide
  have t4 : ("title" : String) ≠ "FEATURED_ARTISTS" := by decide
  unfold move_track_featartists
  rw [hwl]
  rw [if_neg (by simp)]
  rw [mget_trackTagWrite_ne _ _ _ _ t4]
  have hm3 : mget (trackSplitWrite
      (applyStd (applyStd m "artist" "artists") "artistsort" "~artists_sort")
      (stdField (mget m "artist") (mgetall m "artists"))) "title" = mget m "title" := by
    rw [mget_trackSplitWrite_ne _ _ _ t1 t2, mget_applyStd_ne _ _ _ _ t2,
      mget_applyStd_ne _ _ _ _ t1]
  unfold trackTitleWrite
  rw [hm3]
  by_cases hsuf : alreadyHasFeatSuffixS (mget m "title") = true
  · rw [if_neg (by simp [hsuf]), if_pos hsuf]
    exact hm3
  · rw [if_pos ⟨hfeat, htitle, by simpa using hsuf⟩, if_neg hsuf]
    rw [mget_mset_single]

theorem claim2_witness :
    mget (move_track_featartists ⟨false, ""⟩
        [("artist", ["Lead feat. G"]), ("title", ["Song"])]) "title" =
      (if alreadyHasFeatSuffixS
            (mget [("artist", ["Lead feat. G"]), ("title", ["Song"])] "title") = true then
        mget [("artist", ["Lead feat. G"]), ("title", ["Song"])] "title"
       else
        mget [("artist", ["Lead feat. G"]), ("title", ["Song"])] "title" ++ " (feat. " ++
          String.intercalate "; "
            (splitArtistFeatS
              (stdField (mget [("artist", ["Lead feat. G"]), ("title", ["Song"])] "artist")
                (mgetall [("artist", ["Lead feat. G"]), ("title", ["Song"])] "artists"))).2 ++
          ")") :=
  claim2_suffix_exact ⟨false, ""⟩ _ (by decide) (by decide) (by decide)

theorem claim7_witness :
    move_track_featartists ⟨false, "Lead Artist"⟩
        [("artist", ["Lead Artist feat. Guest"]), ("title", ["Song"])] =
      [("artist", ["Lead Artist feat. Guest"]), ("title", ["Song"])] ∧
    move_album_featartists ⟨false, "Lead Artist"⟩
        [("albumartist", ["Lead Artist feat. Guest"]), ("album", ["A"])] =
      [("albumartist", ["Lead Artist feat. Guest"]), ("album", ["A"])] :=
  ⟨(claim7_whitelist_no_mutation ⟨false, "Lead Artist"⟩ _).1 (by decide),
   (claim7_whitelist_no_mutation ⟨false, "Lead Artist"⟩ _).2 (by decide)⟩

theorem claim10_witness :
    mlookup (move_track_featartists ⟨false, ""⟩ [("composer", ["C"])]) "composer" =
        mlookup [("composer", ["C"])] "composer" ∧
    mlookup (move_album_featartists ⟨false, ""⟩ [("composer", ["C"])]) "composer" =
        mlookup [("composer", ["C"])] "composer" ∧
    (mlookup (move_track_featartists ⟨false, ""⟩ [("composer", ["C"])]) "composer").isSome =
        true :=
  ⟨(claim10_frame ⟨false, ""⟩ [("composer", ["C"])] "composer").1 (by decide) (by decide)
      (by decide) (by decide),
   (claim10_frame ⟨false, ""⟩ [("composer", ["C"])] "composer").2.1 (by decide) (by decide)
      (by decide),
   ((claim10_frame ⟨false, ""⟩ [("composer", ["C"])] "composer").2.2 (by decide)).1⟩

/-! Segment toolkit -/

theorem drop_eq_seg_append (s : List Char) (i j : Nat) (h : i ≤ j) :
    s.drop i = seg s i j ++ s.drop j := by
  unfold seg
  have h2 : s.drop j = (s.drop i).drop (j - i) := by
    rw [List.drop_drop]
    congr 1
    omega
  rw [h2, List.take_append_drop]

theorem mem_seg (s : List Char) (i j : Nat) (c : Char) (h : c ∈ seg s i j) : c ∈ s :=
  List.mem_of_mem_drop (List.mem_of_mem_take h)

theorem nameAt_eq_seg (s a : List Char) (q : Nat) (h : nameAt s a q = true) :
    seg s q (q + a.length) = a := by
  unfold nameAt at h
  exact eq_of_beq h

theorem nameAt_bound (s a : List Char) (q : Nat) (hq : q ≤ s.length)
    (h : nameAt s a q = true) : q + a.length ≤ s.length := by
  have he := nameAt_eq_seg s a q h
  have hl := congrArg List.length he
  unfold seg at hl
  rw [List.length_take, List.length_drop] at hl
  omega

theorem wnOk_of_no_nl (t : List Char) (h : '\n' ∉ t) : wnOk t = true := by
  unfold wnOk
  cases hc : (t.dropWhile isSpc).contains '\n'
  · rfl
  · exfalso
    have : ('\n' : Char) ∈ t.dropWhile isSpc := by
      simpa using hc
    exact h (List.Sublist.mem this (List.dropWhile_sublist isSpc))

theorem matchTail_no_nl (s : List Char) (pos : Nat) (hnl : '\n' ∉ s) :
    matchTail s pos = some (s.drop pos) := by
  unfold matchTail
  rw [if_pos]
  exact wnOk_of_no_nl _ (fun hm => hnl (List.mem_of_mem_drop hm))

theorem matchGroups_reassemble (s : List Char) (hnl : '\n' ∉ s) :
    ∀ (names : List (List Char)) (pos : Nat) (js : List (List Char)),
      pos ≤ s.length → matchGroups s names pos = some js →
      interTail names js = s.drop pos ∧ js.length = names.length + 1 ∧
        ∀ j0 ∈ js, ∀ c ∈ j0, c ∈ s := by
  intro names
  induction names with
  | nil =>
    intro pos js hpos h
    unfold matchGroups at h
    rw [matchTail_no_nl s pos hnl] at h
    simp only [Option.map_some'] at h
    obtain rfl := (Option.some.inj h).symm
    refine ⟨rfl, rfl, ?_⟩
    intro j0 hj0 c hc
    simp only [List.mem_singleton] at hj0
    subst hj0
    exact List.mem_of_mem_drop hc
  | cons a rest ih =>
    intro pos js hpos h
    unfold matchGroups at h
    obtain ⟨q, hqmem, hq⟩ := List.exists_of_findSome?_eq_some h
    have hqle : q ≤ s.length := by
      have := List.mem_reverse.mp hqmem
      have := List.mem_range.mp this
      omega
    by_cases hcond : (decide (pos ≤ q) && wnwOk (seg s pos q) && nameAt s a q) = true
    · rw [if_pos hcond] at hq
      simp only [Bool.and_eq_true, decide_eq_true_eq] at hcond
      obtain ⟨⟨hposq, hwnw⟩, hname⟩ := hcond
      cases hrec : matchGroups s rest (q + a.length) with
      | none => rw [hrec] at hq; simp at hq
      | some js2 =>
        rw [hrec] at hq
        simp only [Option.map_some'] at hq
        obtain rfl := (Option.some.inj hq).symm
        have hbound := nameAt_bound s a q hqle hname
        obtain ⟨hinter, hlen, hmem⟩ := ih (q + a.length) js2 hbound hrec
        refine ⟨?_, by simp [hlen], ?_⟩
        · show seg s pos q ++ a ++ interTail rest js2 = s.drop pos
          rw [hinter]
          have e1 : a ++ s.drop (q + a.length) = s.drop q := by
            have e2 := drop_eq_seg_append s q (q + a.length) (by omega)
            rw [nameAt_eq_seg s a q hname] at e2
            exact e2.symm
          rw [List.append_assoc, e1, ← drop_eq_seg_append s pos q hposq]
        · intro j0 hj0 c hc
          rcases List.mem_cons.mp hj0 with hj0 | hj0
          · subst hj0
            exact mem_seg _ _ _ _ hc
          · exact hmem j0 hj0 c hc
    · rw [if_neg hcond] at hq
      simp at hq



theorem ftForm_false (pat l : List Char) (hpat : pat[1]? = some 'f')
    (hf : ∀ c ∈ l, lc c ≠ 'f') : ftForm pat l = false := by
  unfold ftForm
  cases hform : ((l.take pat.length).map lc == pat)
  · rfl
  · exfalso
    have he : (l.take pat.length).map lc = pat := eq_of_beq hform
    have h1 : ((l.take pat.length).map lc)[1]? = some 'f' := by rw [he]; exact hpat
    rw [List.getElem?_map, List.getElem?_take] at h1
    by_cases h2 : 1 < pat.length
    · rw [if_pos h2] at h1
      cases hl1 : l[1]? with
      | none => rw [hl1] at h1; simp at h1
      | some c =>
        rw [hl1] at h1
        simp only [Option.map_some', Option.some.injEq] at h1
        have hcm : c ∈ l := by
          obtain ⟨hlt, hval⟩ := List.getElem?_eq_some.mp hl1
          exact hval ▸ List.getElem_mem hlt
        exact hf c hcm h1
    · rw [if_neg h2] at h1
      simp at h1

theorem ftMatchLen_none (l : List Char) (hf : ∀ c ∈ l, lc c ≠ 'f') : ftMatchLen l = none := by
  unfold ftMatchLen
  rw [ftForm_false _ _ (by rfl) hf, ftForm_false _ _ (by rfl) hf,
    ftForm_false _ _ (by rfl) hf, ftForm_false _ _ (by rfl) hf,
    ftForm_false _ _ (by rfl) hf, ftForm_false _ _ (by rfl) hf]
  rfl

theorem ftSubF_id (fuel : Nat) : ∀ (l : List Char), (∀ c ∈ l, lc c ≠ 'f') →
    ftSubF fuel l = l := by
  induction fuel with
  | zero => intro l h; rfl
  | succ f ih =>
    intro l h
    cases l with
    | nil => rfl
    | cons c rest =>
      unfold ftSubF
      rw [ftMatchLen_none _ h]
      rw [ih rest (fun c2 hc2 => h c2 (List.mem_cons_of_mem c hc2))]

theorem ftSub_id (l : List Char) (h : ∀ c ∈ l, lc c ≠ 'f') : ftSub l = l :=
  ftSubF_id l.length l h

theorem map_ftSub_id (js : List (List Char)) (h : ∀ j ∈ js, ftSub j = j) :
    js.map ftSub = js := by
  induction js with
  | nil => rfl
  | cons j rest ih =>
    simp only [List.map_cons, h j (List.mem_cons_self j rest),
      ih (fun j2 hj2 => h j2 (List.mem_cons_of_mem j hj2))]

theorem rebuildJoins_cons_inter : ∀ (rest js : List (List Char)) (a j : List Char),
    js.length = rest.length →
    rebuildJoins (a :: rest) (j :: js) = a ++ interTail rest (j :: js) := by
  intro rest
  induction rest with
  | nil =>
    intro js a j hlen
    have : js = [] := List.length_eq_zero.mp hlen
    subst this
    show a ++ j ++ rebuildJoins [] [] = a ++ j
    rw [show rebuildJoins [] [] = [] from rfl, List.append_nil]
  | cons b bs ih =>
    intro js a j hlen
    cases js with
    | nil => simp at hlen
    | cons j2 js2 =>
      show a ++ j ++ rebuildJoins (b :: bs) (j2 :: js2) = a ++ (j ++ b ++ interTail bs (j2 :: js2))
      rw [ih js2 b j2 (by simpa using hlen)]
      simp [List.append_assoc]

theorem standardizeJoinPhrases_id (s : List Char) (names : List (List Char))
    (hf : ∀ c ∈ s, lc c ≠ 'f') (hnl : '\n' ∉ s) :
    standardizeJoinPhrases s names = s := by
  unfold standardizeJoinPhrases
  by_cases hc : (s.isEmpty || names.isEmpty) = true
  · rw [if_pos hc]
  · rw [if_neg hc]
    cases names with
    | nil => simp at hc
    | cons a rest =>
      have hmn : matchNames s (a :: rest) =
          (if nameAt s a 0 = true then matchGroups s rest a.length else none) := rfl
      by_cases hname : nameAt s a 0 = true
      · cases hm : matchGroups s rest a.length with
        | none => rw [hmn, if_pos hname, hm]
        | some joins =>
          rw [hmn, if_pos hname, hm]
          show rebuildJoins (a :: rest) (joins.map ftSub) = s
          have hb := nameAt_bound s a 0 (Nat.zero_le _) hname
          obtain ⟨hinter, hlen, hmem⟩ :=
            matchGroups_reassemble s hnl rest a.length joins (by omega) hm
          have hfsub : joins.map ftSub = joins :=
            map_ftSub_id joins (fun j hj => ftSub_id j (fun c hc2 => hf c (hmem j hj c hc2)))
          rw [hfsub]
          cases joins with
          | nil => simp at hlen
          | cons j js2 =>
            rw [rebuildJoins_cons_inter rest js2 a j (by simpa using hlen)]
            rw [hinter]
            have e0 : seg s 0 (0 + a.length) = a := nameAt_eq_seg s a 0 hname
            have e1 := drop_eq_seg_append s 0 (0 + a.length) (by omega)
            rw [e0] at e1
            simp only [List.drop_zero] at e1
            rw [Nat.zero_add] at e1
            exact e1.symm
      · rw [hmn, if_neg hname]



theorem lc_isSpc (c : Char) : isSpc (lc c) = isSpc c := by
  unfold lc
  split <;> rfl

theorem trimL_id (l : List Char) (h : ∀ c, l.head? = some c → isSpc c = false) :
    trimL l = l := by
  unfold trimL
  cases l with
  | nil => rfl
  | cons c rest =>
    have hc := h c rfl
    rw [List.dropWhile_cons]
    simp [hc]

theorem trimR_id (l : List Char) (h : ∀ c, l.getLast? = some c → isSpc c = false) :
    trimR l = l := by
  unfold trimR
  have e : l.reverse.dropWhile isSpc = l.reverse :=
    trimL_id l.reverse (fun c hc => h c (by rwa [List.head?_reverse] at hc))
  rw [e, List.reverse_reverse]

theorem pyStrip_id (l : List Char) (h1 : ∀ c, l.head? = some c → isSpc c = false)
    (h2 : ∀ c, l.getLast? = some c → isSpc c = false) : pyStrip l = l := by
  unfold pyStrip
  rw [trimL_id l h1, trimR_id l h2]

/-- C8: a Various Artists album never gains a synthesized feat-suffix:
when the `albumartist` value is (case-insensitively) exactly
`"various artists"`, the album processor leaves the `album` field
unchanged. -/
theorem claim8_various_artists (cfg : Config) (m : Metadata)
    (hva : (mget m "albumartist").toList.map lc = "various artists".toList) :
    mget (move_album_featartists cfg m) "album" = mget m "album" := by
  have hf : ∀ c ∈ (mget m "albumartist").toList, lc c ≠ 'f' := by
    intro c hc hcf
    have hm2 : lc c ∈ "various artists".toList := hva ▸ List.mem_map_of_mem lc hc
    rw [hcf] at hm2
    exact absurd hm2 (by decide)
  have hnl : '\n' ∉ (mget m "albumartist").toList := by
    intro hc
    have hm2 : lc '\n' ∈ "various artists".toList := hva ▸ List.mem_map_of_mem lc hc
    exact absurd hm2 (by decide)
  have hne : (mget m "albumartist").toList ≠ [] := by
    intro hnil
    rw [hnil] at hva
    exact absurd hva (by decide)
  have haane : mget m "albumartist" ≠ "" :=
    fun h => hne ((toList_eq_nil_iff (mget m "albumartist")).mpr h)
  have hstdf : stdField (mget m "albumartist") (mgetall m "~albumartists") =
      mget m "albumartist" := by
    unfold stdField
    split
    · show standardizeS (mget m "albumartist") (mgetall m "~albumartists") =
        mget m "albumartist"
      unfold standardizeS
      rw [standardizeJoinPhrases_id (mget m "albumartist").toList _ hf hnl]
      rfl
    · rfl
  have hhead : ∀ c, (mget m "albumartist").toList.head? = some c → isSpc c = false := by
    intro c hc
    have e : ((mget m "albumartist").toList.map lc).head? = some (lc c) := by
      rw [List.head?_map, hc]
      rfl
    rw [hva] at e
    have : lc c = 'v' := by
      have := Option.some.inj e
      exact this.symm
    rw [← lc_isSpc, this]
    rfl
  have hlast : ∀ c, (mget m "albumartist").toList.getLast? = some c → isSpc c = false := by
    intro c hc
    have e : ((mget m "albumartist").toList.map lc).getLast? = some (lc c) := by
      rw [List.getLast?_map, hc]
      rfl
    rw [hva] at e
    have : lc c = 's' := by
      have e2 := Option.some.inj e
      exact e2.symm
    rw [← lc_isSpc, this]
    rfl
  have hva2 : vaCheckS (mget m "albumartist") = true := by
    unfold vaCheckS
    rw [pyStrip_id _ hhead hlast, hva]
    exact beq_self_eq_true _
  unfold move_album_featartists
  rw [if_neg haane]
  by_cases hwl : isWhitelistedCreditOrLead cfg (mget m "albumartist") = true
  · rw [if_pos hwl]
  · rw [if_neg hwl, hstdf, if_pos hva2]
    rw [mget_applyStd_ne _ _ _ _ (by decide), mget_applyStd_ne _ _ _ _ (by decide)]

theorem claim8_witness :
    mget (move_album_featartists ⟨false, ""⟩
        [("albumartist", ["Various Artists"]), ("album", ["Comp feat. X"])]) "album" =
      mget [("albumartist", ["Various Artists"]), ("album", ["Comp feat. X"])] "album" :=
  claim8_various_artists ⟨false, ""⟩ _ (by decide)

end FeatStd

namespace FeatStd

theorem isJunk_of_isSpc (c : Char) (h : isSpc c = true) : isJunk c = true := by
  unfold isJunk
  rw [h]
  rfl

theorem isJunk_not_word (c : Char) (h : isJunk c = true) : isWordChar c = false := by
  unfold isJunk isSpc at h
  simp only [Bool.or_eq_true, beq_iff_eq] at h
  have hm : c ∈ [' ', '\t', '\n', '\r', '\x0b', '\x0c', '(', ')', '[', ']', '{', '}'] := by
    simp only [List.mem_cons, List.not_mem_nil, or_false]
    tauto
  fin_cases hm <;> rfl

theorem junkMargins_refl (s : List Char) : JunkMargins s s :=
  ⟨[], [], by simp, by simp, by simp⟩

theorem junkMargins_trans {s t r : List Char} (h1 : JunkMargins s t) (h2 : JunkMargins t r) :
    JunkMargins s r := by
  obtain ⟨p1, q1, he1, hp1, hq1⟩ := h1
  obtain ⟨p2, q2, he2, hp2, hq2⟩ := h2
  refine ⟨p1 ++ p2, q2 ++ q1, ?_, ?_, ?_⟩
  · rw [he1, he2]
    simp [List.append_assoc]
  · intro c hc
    rcases List.mem_append.mp hc with h | h
    exacts [hp1 c h, hp2 c h]
  · intro c hc
    rcases List.mem_append.mp hc with h | h
    exacts [hq2 c h, hq1 c h]

theorem junkMargins_trimL (s : List Char) : JunkMargins s (trimL s) := by
  refine ⟨s.takeWhile isSpc, [], ?_, ?_, by simp⟩
  · rw [List.append_nil]
    exact (List.takeWhile_append_dropWhile isSpc s).symm
  · intro c hc
    exact isJunk_of_isSpc c (List.mem_takeWhile_imp hc)

theorem junkMargins_trimR (s : List Char) : JunkMargins s (trimR s) := by
  refine ⟨[], (s.reverse.takeWhile isSpc).reverse, ?_, by simp, ?_⟩
  · show s = trimR s ++ (s.reverse.takeWhile isSpc).reverse
    unfold trimR
    rw [← List.reverse_append, List.takeWhile_append_dropWhile, List.reverse_reverse]
  · intro c hc
    exact isJunk_of_isSpc c (List.mem_takeWhile_imp (List.mem_reverse.mp hc))

theorem junkMargins_pyStrip (s : List Char) : JunkMargins s (pyStrip s) :=
  junkMargins_trans (junkMargins_trimL s) (junkMargins_trimR (trimL s))

theorem eq_dropLast_append (l : List Char) (r : Char) (h : l.getLast? = some r) :
    l = l.dropLast ++ [r] := by
  have hne : l ≠ [] := by
    intro he
    rw [he] at h
    simp at h
  have h2 := List.getLast?_eq_getLast l hne
  rw [h2] at h
  have h3 : l.getLast hne = r := by injection h
  rw [← h3]
  exact (List.dropLast_append_getLast hne).symm

theorem junkMargins_core (t : List Char) (h : matchPair t = true) :
    JunkMargins t ((t.drop 1).dropLast) := by
  cases t with
  | nil => exact absurd h (by decide)
  | cons c0 u =>
    unfold matchPair at h
    simp only [List.head?_cons, Bool.or_eq_true, Bool.and_eq_true, beq_iff_eq,
      Option.some.injEq] at h
    have hkey : ∃ r, (c0 :: u).getLast? = some r ∧ isJunk c0 = true ∧ isJunk r = true ∧
        c0 ≠ r := by
      rcases h with (⟨h1, h2⟩ | ⟨h1, h2⟩) | ⟨h1, h2⟩ <;> subst h1
      · exact ⟨')', h2, by decide, by decide, by decide⟩
      · exact ⟨']', h2, by decide, by decide, by decide⟩
      · exact ⟨'}', h2, by decide, by decide, by decide⟩
    obtain ⟨r, hl, hjc, hjr, hcr⟩ := hkey
    cases u with
    | nil =>
      exfalso
      apply hcr
      simpa using hl
    | cons d u2 =>
      have hl2 : (d :: u2).getLast? = some r := by
        rw [← List.getLast?_cons_cons]
        exact hl
      have hdecomp := eq_dropLast_append (d :: u2) r hl2
      refine ⟨[c0], [r], ?_, ?_, ?_⟩
      · show c0 :: d :: u2 = [c0] ++ ((c0 :: d :: u2).drop 1).dropLast ++ [r]
        have e1 : ((c0 :: d :: u2).drop 1) = d :: u2 := rfl
        rw [e1]
        conv_lhs => rw [show c0 :: d :: u2 = c0 :: (d :: u2) from rfl, hdecomp]
        simp
      · intro x hx
        simp only [List.mem_singleton] at hx
        subst hx
        exact hjc
      · intro x hx
        simp only [List.mem_singleton] at hx
        subst hx
        exact hjr

theorem junkMargins_stripLoopF (fuel : Nat) : ∀ t, JunkMargins t (stripLoopF fuel t) := by
  induction fuel with
  | zero => intro t; exact junkMargins_refl t
  | succ f ih =>
    intro t
    unfold stripLoopF
    by_cases h : matchPair t = true
    · rw [if_pos h]
      exact junkMargins_trans (junkMargins_core t h)
        (junkMargins_trans (junkMargins_pyStrip _) (ih _))
    · rw [if_neg h]
      exact junkMargins_refl t

theorem junkMargins_stripWrappers (s : List Char) : JunkMargins s (stripWrappers s) := by
  unfold stripWrappers
  by_cases hs : s = []
  · rw [if_pos hs]
    subst hs
    exact junkMargins_refl []
  · rw [if_neg hs]
    exact junkMargins_trans (junkMargins_pyStrip s) (junkMargins_stripLoopF _ _)

end FeatStd

namespace FeatStd

theorem seg_append_left (A B : List Char) (i j : Nat) (hj : j ≤ A.length) :
    seg (A ++ B) i j = seg A i j := by
  unfold seg
  by_cases hij : i ≤ A.length
  · rw [List.drop_append_of_le_length hij]
    exact List.take_append_of_le_length (by rw [List.length_drop]; omega)
  · have : j - i = 0 := by omega
    rw [this]
    simp

theorem seg_inner (pre mid rest : List Char) (p n : Nat) (h : p + n ≤ mid.length) :
    seg (pre ++ mid ++ rest) (pre.length + p) (pre.length + p + n) = seg mid p (p + n) := by
  unfold seg
  rw [List.append_assoc, List.drop_append p, List.drop_append_of_le_length (by omega)]
  rw [show pre.length + p + n - (pre.length + p) = n from by omega,
    show p + n - p = n from by omega]
  exact List.take_append_of_le_length (by rw [List.length_drop]; omega)

theorem drop_append2 (pre mid rest : List Char) (k : Nat) :
    (pre ++ mid ++ rest).drop (pre.length + mid.length + k) = rest.drop k := by
  rw [List.append_assoc,
    show pre.length + mid.length + k = pre.length + (mid.length + k) from by omega,
    List.drop_append, List.drop_append]

theorem seg_after_mid (pre mid rest : List Char) :
    seg (pre ++ mid ++ rest) (pre.length + mid.length) (pre.length + mid.length + 1) =
      rest.take 1 := by
  unfold seg
  have e := drop_append2 pre mid rest 0
  rw [Nat.add_zero] at e
  rw [e, List.drop_zero, show pre.length + mid.length + 1 - (pre.length + mid.length) = 1
    from by omega]

theorem take_head (l : List Char) (n : Nat) (h : 1 ≤ n) : (l.take n).head? = l.head? := by
  cases l with
  | nil => simp
  | cons c rest =>
    cases n with
    | zero => omega
    | succ m => rfl

theorem head?_append_left (l l2 : List Char) (h : l ≠ []) : (l ++ l2).head? = l.head? := by
  cases l with
  | nil => exact absurd rfl h
  | cons c rest => rfl

theorem seg_head (x : List Char) (a n : Nat) (hn : 1 ≤ n) :
    (seg x a (a + n)).head? = (x.drop a).head? := by
  unfold seg
  rw [show a + n - a = n from by omega]
  exact take_head _ n hn

theorem seg_drop_k (x : List Char) (a b k : Nat) : (seg x a b).drop k = seg x (a + k) b := by
  unfold seg
  rw [List.drop_take, List.drop_drop]
  congr 1
  omega

theorem map_lc_singleton (l : List Char) (g : Char) (h : l.map lc = [g]) :
    ∃ c, l = [c] ∧ lc c = g := by
  cases l with
  | nil => simp at h
  | cons c rest =>
    cases rest with
    | nil => exact ⟨c, rfl, by simpa using h⟩
    | cons d r2 => simp at h

theorem isWordChar_of_lc (c : Char) (h : isWordChar (lc c) = true) : isWordChar c = true := by
  unfold lc at h
  split at h
  all_goals first
  | exact h
  | decide

theorem seg_full_len (x : List Char) (a n : Nat) (t : List Char) (hn : 1 ≤ n)
    (h : (seg x a (a + n)).map lc = t) (hlen : t.length = n) : a + n ≤ x.length := by
  have h2 := congrArg List.length h
  rw [List.length_map] at h2
  unfold seg at h2
  rw [List.length_take, List.length_drop,
    show a + n - a = n from by omega, hlen] at h2
  have h3 : n ≤ x.length - a := h2 ▸ inf_le_right
  omega

theorem nonWordSeg_of_junk (x : List Char) (i j : Nat)
    (h : ∀ c ∈ seg x i j, isJunk c = true) : nonWordSeg x i j = true := by
  unfold nonWordSeg
  rw [List.all_eq_true]
  intro c hc
  rw [isJunk_not_word c (h c hc)]
  rfl

theorem tokLenAt_cases (s : List Char) (p l : Nat) (h : tokLenAt s p = some l) :
    boundaryBefore s p = true ∧
    ((l = 5 ∧ (seg s p (p + 5)).map lc = "feat.".toList) ∨
     (l = 9 ∧ (seg s p (p + 9)).map lc = "featuring".toList ∧
        nonWordSeg s (p + 9) (p + 10) = true ∧
        ((seg s p (p + 5)).map lc == "feat.".toList) = false) ∨
     (l = 4 ∧ (seg s p (p + 4)).map lc = "with".toList ∧
        nonWordSeg s (p + 4) (p + 5) = true)) := by
  unfold tokLenAt at h
  by_cases hb : boundaryBefore s p = true
  · rw [if_pos hb] at h
    refine ⟨hb, ?_⟩
    by_cases h1 : ((seg s p (p + 5)).map lc == "feat.".toList) = true
    · rw [if_pos h1] at h
      exact Or.inl ⟨(Option.some.inj h).symm, eq_of_beq h1⟩
    · rw [if_neg h1] at h
      by_cases h2 : ((seg s p (p + 9)).map lc == "featuring".toList &&
          nonWordSeg s (p + 9) (p + 10)) = true
      · rw [if_pos h2] at h
        rw [Bool.and_eq_true] at h2
        exact Or.inr (Or.inl ⟨(Option.some.inj h).symm, eq_of_beq h2.1, h2.2,
          Bool.not_eq_true _ ▸ (by simpa using h1)⟩)
      · rw [if_neg h2] at h
        by_cases h3 : ((seg s p (p + 4)).map lc == "with".toList &&
            nonWordSeg s (p + 4) (p + 5)) = true
        · rw [if_pos h3] at h
          rw [Bool.and_eq_true] at h3
          exact Or.inr (Or.inr ⟨(Option.some.inj h).symm, eq_of_beq h3.1, h3.2⟩)
        · rw [if_neg h3] at h
          simp at h
  · rw [if_neg hb] at h
    simp at h

theorem tokLenAt_build5 (s : List Char) (p : Nat) (hb : boundaryBefore s p = true)
    (h1 : (seg s p (p + 5)).map lc = "feat.".toList) : tokLenAt s p = some 5 := by
  unfold tokLenAt
  rw [if_pos hb, if_pos (by rw [h1]; rfl)]

theorem tokLenAt_build9 (s : List Char) (p : Nat) (hb : boundaryBefore s p = true)
    (h1 : ((seg s p (p + 5)).map lc == "feat.".toList) = false)
    (h2a : (seg s p (p + 9)).map lc = "featuring".toList)
    (h2b : nonWordSeg s (p + 9) (p + 10) = true) : tokLenAt s p = some 9 := by
  unfold tokLenAt
  rw [if_pos hb, if_neg (by rw [h1]; simp), if_pos (by rw [h2a, h2b]; rfl)]

theorem tokLenAt_build4 (s : List Char) (p : Nat) (hb : boundaryBefore s p = true)
    (h1 : ((seg s p (p + 5)).map lc == "feat.".toList) = false)
    (h2 : (((seg s p (p + 9)).map lc == "featuring".toList) &&
      nonWordSeg s (p + 9) (p + 10)) = false)
    (h3a : (seg s p (p + 4)).map lc = "with".toList)
    (h3b : nonWordSeg s (p + 4) (p + 5) = true) : tokLenAt s p = some 4 := by
  unfold tokLenAt
  rw [if_pos hb, if_neg (by rw [h1]; simp), if_neg (by rw [h2]; simp),
    if_pos (by rw [h3a, h3b]; rfl)]

end FeatStd

namespace FeatStd

theorem drop_map_lc (l : List Char) (k : Nat) : (l.map lc).drop k = (l.drop k).map lc := by
  induction l generalizing k with
  | nil => simp
  | cons c t ih =>
    cases k with
    | zero => rfl
    | succ m => exact ih m

theorem tokLenAt_ne_none (s : List Char) (q : Nat) (hb : boundaryBefore s q = true)
    (h : (seg s q (q + 5)).map lc = "feat.".toList ∨
      ((seg s q (q + 9)).map lc = "featuring".toList ∧ nonWordSeg s (q + 9) (q + 10) = true) ∨
      ((seg s q (q + 4)).map lc = "with".toList ∧ nonWordSeg s (q + 4) (q + 5) = true)) :
    tokLenAt s q ≠ none := by
  unfold tokLenAt
  rw [if_pos hb]
  by_cases h1 : ((seg s q (q + 5)).map lc == "feat.".toList) = true
  · rw [if_pos h1]
    simp
  · rw [if_neg h1]
    by_cases h2 : (((seg s q (q + 9)).map lc == "featuring".toList) &&
        nonWordSeg s (q + 9) (q + 10)) = true
    · rw [if_pos h2]
      simp
    · rw [if_neg h2]
      by_cases h3 : (((seg s q (q + 4)).map lc == "with".toList) &&
          nonWordSeg s (q + 4) (q + 5)) = true
      · rw [if_pos h3]
        simp
      · exfalso
        rcases h with hf | ⟨ha, hb2⟩ | ⟨ha, hb2⟩
        · exact h1 (by rw [hf]; exact beq_self_eq_true _)
        · exact h2 (by rw [ha, hb2]; rfl)
        · exact h3 (by rw [ha, hb2]; rfl)

theorem boundary_transfer (pre lead rest : List Char) (p : Nat)
    (hpre : ∀ c ∈ pre, isJunk c = true)
    (hplen : p < lead.length)
    (hbL : boundaryBefore lead p = true) :
    boundaryBefore (pre ++ lead ++ rest) (pre.length + p) = true := by
  rcases Nat.eq_zero_or_pos p with hp0 | hp0
  · subst hp0
    rw [Nat.add_zero]
    by_cases hpn : pre = []
    · subst hpn
      rfl
    · unfold boundaryBefore
      rw [Bool.or_eq_true]
      right
      apply nonWordSeg_of_junk
      intro c hc
      have hseg : seg (pre ++ lead ++ rest) (pre.length - 1) pre.length
          = seg pre (pre.length - 1) pre.length := by
        rw [List.append_assoc]
        exact seg_append_left pre (lead ++ rest) (pre.length - 1) pre.length (Nat.le_refl _)
      rw [hseg] at hc
      exact hpre c (mem_seg pre (pre.length - 1) pre.length c hc)
  · unfold boundaryBefore at hbL ⊢
    rw [Bool.or_eq_true] at hbL
    rcases hbL with hbL | hbL
    · exfalso
      have : p = 0 := by simpa using hbL
      omega
    · rw [Bool.or_eq_true]
      right
      have hseg : seg (pre ++ lead ++ rest) (pre.length + p - 1) (pre.length + p)
          = seg lead (p - 1) p := by
        rw [show pre.length + p - 1 = pre.length + (p - 1) from by omega,
          show pre.length + p = pre.length + (p - 1) + 1 from by omega,
          seg_inner pre lead rest (p - 1) 1 (by omega),
          show p - 1 + 1 = p from by omega]
      unfold nonWordSeg at hbL ⊢
      rw [hseg]
      exact hbL

theorem tail_nonword_transfer (pre lead post d : List Char) (p n : Nat)
    (hpost : ∀ c ∈ post, isJunk c = true)
    (hle : p + n ≤ lead.length)
    (hnwL : nonWordSeg lead (p + n) (p + n + 1) = true)
    (hcase : p + n < lead.length ∨ (p + n = lead.length ∧ post ≠ [])) :
    nonWordSeg (pre ++ lead ++ (post ++ d)) (pre.length + p + n) (pre.length + p + n + 1)
      = true := by
  rcases hcase with hlt | ⟨heq, hpn⟩
  · have hseg : seg (pre ++ lead ++ (post ++ d)) (pre.length + (p + n))
        (pre.length + (p + n) + 1) = seg lead (p + n) (p + n + 1) :=
      seg_inner pre lead (post ++ d) (p + n) 1 (by omega)
    unfold nonWordSeg at hnwL ⊢
    rw [show pre.length + p + n = pre.length + (p + n) from by omega, hseg]
    exact hnwL
  · apply nonWordSeg_of_junk
    intro c hc
    rw [show pre.length + p + n = pre.length + lead.length from by omega,
      seg_after_mid pre lead (post ++ d)] at hc
    have htake : (post ++ d).take 1 = post.take 1 :=
      List.take_append_of_le_length (List.length_pos.mpr hpn)
    rw [htake] at hc
    exact hpost c (List.mem_of_mem_take hc)

theorem stripped_last_word_contra (s pre lead rest : List Char) (p n : Nat) (g : Char)
    (tokl : List Char)
    (hword : isWordChar g = true)
    (hs : s = pre ++ lead ++ rest)
    (hn : 1 ≤ n)
    (hle : p + n ≤ lead.length)
    (hmap : (seg lead p (p + n)).map lc = tokl)
    (hdroptok : tokl.drop (n - 1) = [g])
    (hbj : nonWordSeg s (pre.length + p + n - 1) (pre.length + p + n) = true) : False := by
  have h2 : (seg lead (p + (n - 1)) (p + n)).map lc = [g] := by
    have h3 := congrArg (List.drop (n - 1)) hmap
    rw [drop_map_lc, seg_drop_k, hdroptok] at h3
    exact h3
  obtain ⟨c, hc1, hc2⟩ := map_lc_singleton _ g h2
  have hseg : seg s (pre.length + p + n - 1) (pre.length + p + n)
      = seg lead (p + (n - 1)) (p + n) := by
    rw [hs, show pre.length + p + n - 1 = pre.length + (p + (n - 1)) from by omega,
      show pre.length + p + n = pre.length + (p + (n - 1)) + 1 from by omega,
      seg_inner pre lead rest (p + (n - 1)) 1 (by omega),
      show p + (n - 1) + 1 = p + n from by omega]
  unfold nonWordSeg at hbj
  rw [hseg, hc1] at hbj
  simp only [List.all_cons, List.all_nil, Bool.and_true] at hbj
  have hcw : isWordChar c = true := isWordChar_of_lc c (by rw [hc2]; exact hword)
  rw [hcw] at hbj
  simp at hbj

theorem no_token_in_stripped_lead (s : List Char) (j l0 : Nat)
    (hj : j < s.length)
    (htokj : tokLenAt s j = some l0)
    (hmin : ∀ q, q < j → tokLenAt s q = none)
    (p l : Nat)
    (h : tokLenAt (stripWrappers (s.take j)) p = some l) : False := by
  obtain ⟨pre, post, hdecomp, hpre, hpost⟩ := junkMargins_stripWrappers (s.take j)
  set L := stripWrappers (s.take j) with hL
  have hlen1 : (s.take j).length = j := by
    rw [List.length_take]
    exact inf_eq_left.mpr hj.le
  have hjlen : j = pre.length + L.length + post.length := by
    have h2 := congrArg List.length hdecomp
    rw [hlen1, List.length_append, List.length_append] at h2
    omega
  have hs : s = pre ++ L ++ (post ++ s.drop j) := by
    conv_lhs => rw [← List.take_append_drop j s]
    rw [hdecomp]
    exact List.append_assoc (pre ++ L) post (s.drop j)
  obtain ⟨hbL, hcases⟩ := tokLenAt_cases L p l h
  rcases hcases with ⟨hl5, hmap⟩ | ⟨hl9, hmap, hnwL, hfneg⟩ | ⟨hl4, hmap, hnwL⟩
  · have hle : p + 5 ≤ L.length := seg_full_len L p 5 _ (by omega) hmap rfl
    have hqj : pre.length + p < j := by omega
    have hbS : boundaryBefore s (pre.length + p) = true := by
      rw [hs]
      exact boundary_transfer pre L (post ++ s.drop j) p hpre (by omega) hbL
    have hsegmap : (seg s (pre.length + p) (pre.length + p + 5)).map lc = "feat.".toList := by
      rw [hs, seg_inner pre L (post ++ s.drop j) p 5 hle]
      exact hmap
    exact tokLenAt_ne_none s (pre.length + p) hbS (Or.inl hsegmap) (hmin (pre.length + p) hqj)
  · have hle : p + 9 ≤ L.length := seg_full_len L p 9 _ (by omega) hmap rfl
    have hqj : pre.length + p < j := by omega
    have hbS : boundaryBefore s (pre.length + p) = true := by
      rw [hs]
      exact boundary_transfer pre L (post ++ s.drop j) p hpre (by omega) hbL
    have hsegmap : (seg s (pre.length + p) (pre.length + p + 9)).map lc
        = "featuring".toList := by
      rw [hs, seg_inner pre L (post ++ s.drop j) p 9 hle]
      exact hmap
    rcases Nat.lt_or_ge (p + 9) L.length with hlt | hge
    · have hnw := tail_nonword_transfer pre L post (s.drop j) p 9 hpost hle
        (by rw [show p + 9 + 1 = p + 10 from by omega]; exact hnwL) (Or.inl hlt)
      have hnw2 : nonWordSeg s (pre.length + p + 9) (pre.length + p + 10) = true := by
        rw [hs, show pre.length + p + 10 = pre.length + p + 9 + 1 from by omega]
        exact hnw
      exact tokLenAt_ne_none s (pre.length + p) hbS (Or.inr (Or.inl ⟨hsegmap, hnw2⟩))
        (hmin (pre.length + p) hqj)
    · have heq : p + 9 = L.length := by omega
      by_cases hpp : post = []
      · have hplen0 : post.length = 0 := by rw [hpp]; rfl
        have hjq : j = pre.length + p + 9 := by omega
        have hbj := (tokLenAt_cases s j l0 htokj).1
        unfold boundaryBefore at hbj
        rw [Bool.or_eq_true] at hbj
        rcases hbj with hbj | hbj
        · have : j = 0 := by simpa using hbj
          omega
        · rw [hjq] at hbj
          exact stripped_last_word_contra s pre L (post ++ s.drop j) p 9 'g'
            ("featuring".toList) (by decide) hs (by omega) hle hmap (by decide) hbj
      · have hnw := tail_nonword_transfer pre L post (s.drop j) p 9 hpost hle
          (by rw [show p + 9 + 1 = p + 10 from by omega]; exact hnwL) (Or.inr ⟨heq, hpp⟩)
        have hnw2 : nonWordSeg s (pre.length + p + 9) (pre.length + p + 10) = true := by
          rw [hs, show pre.length + p + 10 = pre.length + p + 9 + 1 from by omega]
          exact hnw
        exact tokLenAt_ne_none s (pre.length + p) hbS (Or.inr (Or.inl ⟨hsegmap, hnw2⟩))
          (hmin (pre.length + p) hqj)
  · have hle : p + 4 ≤ L.length := seg_full_len L p 4 _ (by omega) hmap rfl
    have hqj : pre.length + p < j := by omega
    have hbS : boundaryBefore s (pre.length + p) = true := by
      rw [hs]
      exact boundary_transfer pre L (post ++ s.drop j) p hpre (by omega) hbL
    have hsegmap : (seg s (pre.length + p) (pre.length + p + 4)).map lc = "with".toList := by
      rw [hs, seg_inner pre L (post ++ s.drop j) p 4 hle]
      exact hmap
    rcases Nat.lt_or_ge (p + 4) L.length with hlt | hge
    · have hnw := tail_nonword_transfer pre L post (s.drop j) p 4 hpost hle
        (by rw [show p + 4 + 1 = p + 5 from by omega]; exact hnwL) (Or.inl hlt)
      have hnw2 : nonWordSeg s (pre.length + p + 4) (pre.length + p + 5) = true := by
        rw [hs, show pre.length + p + 5 = pre.length + p + 4 + 1 from by omega]
        exact hnw
      exact tokLenAt_ne_none s (pre.length + p) hbS (Or.inr (Or.inr ⟨hsegmap, hnw2⟩))
        (hmin (pre.length + p) hqj)
    · have heq : p + 4 = L.length := by omega
      by_cases hpp : post = []
      · have hplen0 : post.length = 0 := by rw [hpp]; rfl
        have hjq : j = pre.length + p + 4 := by omega
        have hbj := (tokLenAt_cases s j l0 htokj).1
        unfold boundaryBefore at hbj
        rw [Bool.or_eq_true] at hbj
        rcases hbj with hbj | hbj
        · have : j = 0 := by simpa using hbj
          omega
        · rw [hjq] at hbj
          exact stripped_last_word_contra s pre L (post ++ s.drop j) p 4 'h'
            ("with".toList) (by decide) hs (by omega) hle hmap (by decide) hbj
      · have hnw := tail_nonword_transfer pre L post (s.drop j) p 4 hpost hle
          (by rw [show p + 4 + 1 = p + 5 from by omega]; exact hnwL) (Or.inr ⟨heq, hpp⟩)
        have hnw2 : nonWordSeg s (pre.length + p + 4) (pre.length + p + 5) = true := by
          rw [hs, show pre.length + p + 5 = pre.length + p + 4 + 1 from by omega]
          exact hnw
        exact tokLenAt_ne_none s (pre.length + p) hbS (Or.inr (Or.inr ⟨hsegmap, hnw2⟩))
          (hmin (pre.length + p) hqj)

/-- C4 (counterexample): on `"with X"` a token is found at position 0,
so the stripped lead is empty and the function falls back to returning
the whole original string; re-running the split on that returned lead
splits again, refuting the unconditional no-double-split claim. -/
theorem claim4_cex :
    (findTok "with X".toList).isSome = true ∧
      splitArtistFeatS ((splitArtistFeatS "with X").1)
        ≠ ((splitArtistFeatS "with X").1, ([] : List String)) := by
  constructor
  · rfl
  · decide

/-- C4 (amended): if a feature token is found and the returned lead is
not the original string (i.e. the empty-lead fallback was not taken,
so the lead really is the wrapper-stripped prefix before the token),
then re-running `_split_artist_feat` on the lead yields the lead
unchanged with no guests: stripping only removes whitespace/bracket
margins, so a token with its word boundary inside the lead would
embed as an earlier token occurrence in the original string,
contradicting the minimality of the first match position. -/
theorem claim4_amended (s : String) (h1 : (findTok s.toList).isSome = true)
    (h2 : (splitArtistFeatS s).1 ≠ s) :
    splitArtistFeatS ((splitArtistFeatS s).1) = ((splitArtistFeatS s).1, ([] : List String)) := by
  cases hft : findTok s.toList with
  | none =>
    rw [hft] at h1
    simp at h1
  | some jl =>
    obtain ⟨j, l0⟩ := jl
    obtain ⟨-, hj, htokj, hmin0⟩ := findTokF_some_inv s.toList (s.toList.length + 1) 0 j l0 hft
    have hmin : ∀ q, q < j → tokLenAt s.toList q = none := fun q hq =>
      hmin0 q (Nat.zero_le q) hq
    have hsne : s.toList ≠ [] := by
      intro he
      rw [he] at hj
      exact absurd hj (by simp)
    have hsplit : splitArtistFeat s.toList =
        (if stripWrappers (s.toList.take j) = [] then s.toList
          else stripWrappers (s.toList.take j),
         normalizeFeatList (stripWrappers
           (((s.toList.drop (j + l0)).dropWhile isSpc).takeWhile (fun c => c != '\n')))) := by
      unfold splitArtistFeat
      rw [if_neg hsne, hft]
    by_cases hw : stripWrappers (s.toList.take j) = []
    · exfalso
      apply h2
      show String.mk (splitArtistFeat s.toList).1 = s
      rw [hsplit, if_pos hw]
      exact string_mk_toList s
    · have hlead : (splitArtistFeatS s).1 = String.mk (stripWrappers (s.toList.take j)) := by
        show String.mk (splitArtistFeat s.toList).1 = _
        rw [hsplit, if_neg hw]
      rw [hlead]
      have hnot : ∀ q, q < (stripWrappers (s.toList.take j)).length →
          tokLenAt (stripWrappers (s.toList.take j)) q = none := by
        intro q hq
        cases hcase : tokLenAt (stripWrappers (s.toList.take j)) q with
        | none => rfl
        | some l2 =>
          exact (no_token_in_stripped_lead s.toList j l0 hj htokj hmin q l2 hcase).elim
      show (String.mk (splitArtistFeat (String.mk (stripWrappers (s.toList.take j))).toList).1,
        (splitArtistFeat (String.mk (stripWrappers (s.toList.take j))).toList).2.map String.mk)
        = _
      rw [show (String.mk (stripWrappers (s.toList.take j))).toList
        = stripWrappers (s.toList.take j) from rfl]
      rw [splitArtistFeat_no_token _ hnot]
      rfl

theorem claim4_witness :
    splitArtistFeatS ((splitArtistFeatS "A feat. B").1)
      = ((splitArtistFeatS "A feat. B").1, ([] : List String)) :=
  claim4_amended "A feat. B" (by decide) (by decide)

end FeatStd
